import Mathlib

/-!
Shallow embedding of the gnucash-qif-import program (src/import.py and
src/mtp.py): the data model, account lookup, fixed-point amount conversion,
duplicate detection, the import loop and the source readers, together with
models of the external collaborators (ledger store, device listing, regular
expressions) as described by the specification's interface sections.
-/

/-- Calendar date at day granularity; entry dates and the ledger's posted
dates carry no time-of-day observable by the program's comparisons (QIF dates
parse to midnight datetimes and the book comparison is on the
`%Y-%m-%d` rendering). -/
structure DateT where
  year : Nat
  month : Nat
  day : Nat
  deriving DecidableEq, Repr

/-- Python `datetime` `<` restricted to day granularity: lexicographic on
(year, month, day). -/
def DateT.lt (a b : DateT) : Bool :=
  decide (a.year < b.year) ||
    (decide (a.year = b.year) &&
      (decide (a.month < b.month) ||
        (decide (a.month = b.month) && decide (a.day < b.day))))

/-- Modelled from the spec: the Entry record produced by the repository's QIF
parser module (not under src/) — date, memo, account path text, offsetting
category path text, and the raw amount text. -/
structure Entry where
  date : DateT
  memo : String
  account : String
  split_category : String
  split_amount : String
  deriving DecidableEq, Repr

/-- The value type of `Entry.as_tuple()`. -/
abbrev EntryTuple := DateT × String × String × String × String

/-- Modelled from the spec: `Entry.as_tuple()` lives in the repository's QIF
parser module, which is not under src/; the spec describes it as a canonical
tuple of the Entry fields, used as a value-equality key for in-run dedup. -/
def Entry.as_tuple (e : Entry) : EntryTuple :=
  (e.date, e.memo, e.account, e.split_category, e.split_amount)

/-- Modelled from the spec (Ledger Collaborator): a currency object exposes a
fixed-point fractional denominator (`get_fraction`) and an ISO mnemonic. -/
structure Currency where
  fraction : Int
  mnemonic : String
  deriving DecidableEq, Repr

/-- An account is identified by its full path of names below the root. -/
abbrev AccountPath := List String

/-- One leg of a transaction: the Python code calls `SetValue` and `SetAmount`
with the same `GncNumeric`, whose denominator is always the currency fraction,
so a split is its account plus the fixed-point numerator. -/
structure Split where
  account : AccountPath
  amount : Int
  deriving DecidableEq, Repr

/-- A committed ledger transaction as observable by this program: description,
posted date (day granularity) and splits.  `SetDateEnteredTS(now())` and
`SetCurrency` affect no field any code path reads back. -/
structure Tx where
  descr : String
  date : DateT
  splits : List Split
  deriving DecidableEq, Repr

/-- The ledger book: the account tree flattened to the list of existing
account paths (in tree order), and the transaction list (in commit order). -/
structure Book where
  accounts : List AccountPath
  transactions : List Tx
  deriving DecidableEq, Repr

/-- `initSeg p q` holds when `p` is an initial segment of `q`. -/
def initSeg {α : Type} [DecidableEq α] : List α → List α → Bool
  | [], _ => true
  | _ :: _, [] => false
  | a :: as, b :: bs => decide (a = b) && initSeg as bs

/-- Python `str.split` with a single-character separator, on character lists;
always returns at least one (possibly empty) group. -/
def splitChars (sep : Char) : List Char → List (List Char)
  | [] => [[]]
  | c :: cs =>
    match splitChars sep cs with
    | [] => [[]]
    | g :: gs => if c = sep then [] :: g :: gs else (c :: g) :: gs

/-- Python `s.split(sep)` for a one-character separator. -/
def pySplit (s : String) (sep : Char) : List String :=
  (splitChars sep s.data).map String.mk

/-- Modelled from the spec (Ledger Collaborator): `Account.lookup_by_name`
resolves a name among the descendants of the given account (GnuCash's
recursive search); the model returns the first account in the book's account
list lying strictly below `acct` whose leaf name is `n`, and `none` when there
is none (the Python binding's wrapper with a `None` instance). -/
def lookup_by_name (bk : Book) (acct : AccountPath) (n : String) : Option AccountPath :=
  bk.accounts.find? (fun q => initSeg acct q && decide (q ≠ acct) && decide (q.getLastD "" = n))

/-- `lookup_account_by_path` from import.py: resolve the head segment under
the current account, raise when it is missing, and recurse on the tail. -/
def lookup_account_by_path (bk : Book) (acct : AccountPath) : List String → Except String AccountPath
  | [] => .error "empty account path"
  | p :: rest =>
    match lookup_by_name bk acct p with
    | none => .error ("Account path " ++ String.intercalate ":" (p :: rest) ++ " not found")
    | some acc => if rest = [] then .ok acc else lookup_account_by_path bk acc rest

/-- `lookup_account` from import.py: split the colon-delimited name and
resolve it from the root account (the empty path). -/
def lookup_account (bk : Book) (name : String) : Except String AccountPath :=
  lookup_account_by_path bk [] (pySplit name ':')

/-- The `.replace(',', '.')` applied to the raw amount text. -/
def pyReplaceCommaDot (s : String) : String :=
  String.mk (s.data.map (fun c => if c = ',' then '.' else c))

/-- Value of a list of decimal digit characters. -/
def digitsToNat (l : List Char) : Nat :=
  l.foldl (fun n c => 10 * n + (c.toNat - 48)) 0

/-- Unsigned decimal literal: digits with an optional fractional part;
returns the mantissa and the number of fractional digits. -/
def parseUnsignedDec (l : List Char) : Option (Nat × Nat) :=
  let ip := l.takeWhile Char.isDigit
  match l.dropWhile Char.isDigit with
  | [] => if ip.isEmpty then none else some (digitsToNat ip, 0)
  | '.' :: fp =>
    if fp.all Char.isDigit && !(ip.isEmpty && fp.isEmpty) then
      some (digitsToNat ip * 10 ^ fp.length + digitsToNat fp, fp.length)
    else none
  | _ => none

/-- Modelled from the spec/stdlib: `Decimal(s)` on a plain decimal literal
(optional sign, digits, optional fractional part), represented exactly as a
scaled integer `(m, k)` with value `m / 10 ^ k`; `none` models the exception
`Decimal` raises on malformed text. -/
def parseDecimal (s : String) : Option (Int × Nat) :=
  match s.data with
  | '-' :: rest => (parseUnsignedDec rest).map (fun p => (-(p.1 : Int), p.2))
  | '+' :: rest => (parseUnsignedDec rest).map (fun p => ((p.1 : Int), p.2))
  | _ => (parseUnsignedDec s.data).map (fun p => ((p.1 : Int), p.2))

/-- `to_gnc_numeric(item, currency, positive)` from import.py, collapsed to
the exact numerator over the fixed denominator `currency.fraction`: the code
computes `int(Decimal(text.replace(',', '.')) * fraction) * positive`, where
`int` truncates toward zero, which on the exact value `m / 10^k * fraction`
is `Int.tdiv (m * fraction) (10 ^ k)`.  `none` models a decimal parse error. -/
def to_gnc_numeric (item : Entry) (currency : Currency) (positive : Int) : Option Int :=
  (parseDecimal (pyReplaceCommaDot item.split_amount)).map
    (fun p => (Int.tdiv (p.1 * currency.fraction) ((10 : Int) ^ p.2)) * positive)

/-- `to_gnc_numeric` with the raised decimal error made explicit. -/
def to_gnc_numericE (item : Entry) (currency : Currency) (positive : Int) : Except String Int :=
  match to_gnc_numeric item currency positive with
  | some v => .ok v
  | none => .error "decimal parse error"

/-- `add_transaction` from import.py: resolve both paths, convert the amount
with both signs, and commit the two-split transaction (an append to the
book's transaction list). -/
def add_transaction (bk : Book) (item : Entry) (currency : Currency) : Except String Book := do
  let acc ← lookup_account bk item.account
  let amt ← to_gnc_numericE item currency 1
  let acc2 ← lookup_account bk item.split_category
  let amt2 ← to_gnc_numericE item currency (-1)
  .ok { bk with
        transactions := bk.transactions ++
          [{ descr := item.memo, date := item.date,
             splits := [{ account := acc, amount := amt },
                        { account := acc2, amount := amt2 }] }] }

/-- Modelled from the spec (Ledger Collaborator): `Account.FindTransByDesc`
searches the account's transactions by description and returns at most one;
the model returns the first transaction in book order having a split in the
account and exactly the given description. -/
def findTransByDesc (bk : Book) (acc : AccountPath) (d : String) : Option Tx :=
  bk.transactions.find?
    (fun t => t.splits.any (fun s => decide (s.account = acc)) && decide (t.descr = d))

/-- Modelled from the spec (Ledger Collaborator): `GetAccountAmount` is the
amount the transaction moves in the given account (the sum of its splits in
that account), in fixed-point units. -/
def getAccountAmount (t : Tx) (acc : AccountPath) : Int :=
  (t.splits.filter (fun s => decide (s.account = acc))).foldr (fun s n => s.amount + n) 0

/-- `item_already_in_book` from import.py: find a transaction in the entry's
account by description, then compare posted date at day granularity and the
amount in that account against the entry's scaled amount. -/
def item_already_in_book (bk : Book) (item : Entry) (currency : Currency) : Except String Bool := do
  let acc ← lookup_account bk item.account
  match findTransByDesc bk acc item.memo with
  | none => .ok false
  | some t =>
    if t.date = item.date then do
      let amt ← to_gnc_numericE item currency 1
      .ok (decide (getAccountAmount t acc = amt))
    else
      .ok false

/-- Per-entry outcome of the loop in `write_transactions_to_gnucash`.  For a
duplicate skip both disjuncts of the code's `or` are recorded as pure
observations: the value `item_already_in_book` returned, and whether
`item.as_tuple()` was in the in-run duplicate set (Python short-circuits the
membership test; it is side-effect free, so recording it changes nothing). -/
inductive EntryResult where
  | filtered : EntryResult
  | duplicate : Bool → Bool → EntryResult
  | posted : EntryResult
  deriving DecidableEq, Repr

/-- The `date_from and item.date < date_from` test of the loop. -/
def belowDateFrom (d : DateT) : Option DateT → Bool
  | some df => DateT.lt d df
  | none => false

/-- One iteration of the loop in `write_transactions_to_gnucash`: date filter
first, then the ledger-level and in-run duplicate tests, otherwise post and
record the tuple. -/
def step (currency : Currency) (date_from : Option DateT) (bk : Book)
    (seen : List EntryTuple) (item : Entry) :
    Except String ((Book × List EntryTuple) × EntryResult) :=
  if belowDateFrom item.date date_from then
    .ok ((bk, seen), .filtered)
  else do
    let ledgerDup ← item_already_in_book bk item currency
    let runDup := decide (item.as_tuple ∈ seen)
    if ledgerDup || runDup then
      .ok ((bk, seen), .duplicate ledgerDup runDup)
    else do
      let bk2 ← add_transaction bk item currency
      .ok ((bk2, seen ++ [item.as_tuple]), .posted)

/-- The loop of `write_transactions_to_gnucash` over the collected entries,
threading the book and the in-run duplicate set `imported_items` and
recording each entry's outcome. -/
def runEntries (currency : Currency) (date_from : Option DateT) (bk : Book)
    (seen : List EntryTuple) : List Entry →
    Except String (Book × List EntryTuple × List EntryResult)
  | [] => .ok (bk, seen, [])
  | item :: rest => do
    let r ← step currency date_from bk seen item
    let rest2 ← runEntries currency date_from r.1.1 r.1.2 rest
    .ok (rest2.1, rest2.2.1, r.2 :: rest2.2.2)

/-- `write_transactions_to_gnucash` from import.py after the session open and
ISO4217 currency lookup (external), starting from the empty in-run duplicate
set `imported_items = set()`.  The final save (suppressed on dry run) does not
change the returned book value. -/
def write_transactions_to_gnucash (bk : Book) (currency : Currency)
    (all_items : List Entry) (date_from : Option DateT) :
    Except String (Book × List EntryTuple × List EntryResult) :=
  runEntries currency date_from bk [] all_items

/-- Modelled from the spec/stdlib: regular-expression patterns (the `re`
module) as an abstract syntax tree; `re.compile` of the textual pattern is
external and a compiled pattern is passed in directly. -/
inductive Regex where
  | emptyR : Regex
  | epsR : Regex
  | charR : Char → Regex
  | anyR : Regex
  | altR : Regex → Regex → Regex
  | catR : Regex → Regex → Regex
  | starR : Regex → Regex
  deriving DecidableEq, Repr

/-- Whether the pattern's language contains the empty string. -/
def Regex.nullable : Regex → Bool
  | .emptyR => false
  | .epsR => true
  | .charR _ => false
  | .anyR => false
  | .altR r s => r.nullable || s.nullable
  | .catR r s => r.nullable && s.nullable
  | .starR _ => true

/-- Brzozowski derivative of the pattern by one character. -/
def Regex.deriv : Regex → Char → Regex
  | .emptyR, _ => .emptyR
  | .epsR, _ => .emptyR
  | .charR c, a => if a = c then .epsR else .emptyR
  | .anyR, _ => .epsR
  | .altR r s, a => .altR (r.deriv a) (s.deriv a)
  | .catR r s, a =>
    if r.nullable then .altR (.catR (r.deriv a) s) (s.deriv a) else .catR (r.deriv a) s
  | .starR r, a => .catR (r.deriv a) (.starR r)

/-- Whole-string match (`re.fullmatch` semantics) by derivatives. -/
def matchesFull (r : Regex) : List Char → Bool
  | [] => r.nullable
  | c :: cs => matchesFull (r.deriv c) cs

/-- `re.match` semantics: a match anchored at position zero, succeeding when
some initial segment of the input is in the pattern's language. -/
def reMatch (r : Regex) : List Char → Bool
  | [] => r.nullable
  | c :: cs => r.nullable || reMatch (r.deriv c) cs

/-- `read_entries_from_mtp` from mtp.py.  External collaborators appear as
parameters: `mtpList` is the device listing returned by `get_mtp_files()`
(file id, filename pairs) and `mtpGet fid fname` is `read_entries_from_mtp_file`
(the `mtp-getfile` retrieval composed with `qif.parse_qif`), failing with
`.error` when retrieval or parsing raises.  The Python `imported` set is
mutated in place, so its current value is returned even when an exception
propagates; `acc` is the local `entries` accumulator. -/
def read_entries_from_mtp (regex : Regex)
    (mtpGet : String → String → Except String (List Entry))
    (mtpList : List (String × String)) (acc : List Entry) (imported : List String) :
    Except String (List Entry) × List String :=
  match mtpList with
  | [] => (.ok acc, imported)
  | (fid, fname) :: rest =>
    if reMatch regex fname.data then
      if fname ∈ imported then
        read_entries_from_mtp regex mtpGet rest acc imported
      else
        match mtpGet fid fname with
        | .error e => (.error e, imported)
        | .ok es => read_entries_from_mtp regex mtpGet rest (acc ++ es) (imported ++ [fname])
    else
      read_entries_from_mtp regex mtpGet rest acc imported

/-- `os.path.basename` for POSIX paths: the component after the last slash. -/
def basename (fn : String) : String :=
  (pySplit fn '/').getLastD ""

/-- `fn.startswith(MTP_SCHEME)` with `MTP_SCHEME = 'mtp:'`. -/
def isMtpSource (fn : String) : Bool :=
  initSeg ['m', 't', 'p', ':'] fn.data

/-- `read_entries` from import.py.  `parseFile fn` is `open(fn)` composed with
`qif.parse_qif` (external), failing with `.error` when opening or parsing
raises; for an mtp source, `regex` stands for `re.compile` of the pattern
after the scheme, and the device collaborators are as in
`read_entries_from_mtp`.  The returned set reflects the in-place mutations of
`imported` even when an exception propagates.  The skip test uses the
basename of the source while the post-parse insertion records the full
source text `fn`. -/
def read_entries (parseFile : String → Except String (List Entry)) (regex : Regex)
    (mtpGet : String → String → Except String (List Entry))
    (mtpList : List (String × String)) (fn : String) (imported : List String) :
    Except String (List Entry) × List String :=
  if isMtpSource fn then
    read_entries_from_mtp regex mtpGet mtpList [] imported
  else
    if basename fn ∈ imported then
      (.ok [], imported)
    else
      match parseFile fn with
      | .error e => (.error e, imported)
      | .ok items => (.ok items, imported ++ [fn])

deriving instance DecidableEq for Except

/-- Truncation toward zero of a rational number, the semantics of Python
`int()` on an exact `Decimal` product. -/
def ratTrunc (q : ℚ) : Int := if 0 ≤ q then ⌊q⌋ else ⌈q⌉

/-- The ledger-duplicate condition exactly as claim C3 words it: the resolved
account contains SOME transaction whose description matches the entry's memo,
whose posted date equals the entry's date at day granularity, and whose amount
in that account equals the entry's scaled amount.  Stated from the claim, to
be compared with `item_already_in_book` as translated from the source. -/
def claimedLedgerDuplicate (bk : Book) (item : Entry) (c : Currency) : Bool :=
  match lookup_account bk item.account, to_gnc_numeric item c 1 with
  | .ok acc, some amt =>
    bk.transactions.any (fun t =>
      t.splits.any (fun s => decide (s.account = acc)) &&
      decide (t.descr = item.memo) && decide (t.date = item.date) &&
      decide (getAccountAmount t acc = amt))
  | _, _ => false

/-- Specification-side account resolution: every segment of the path resolves
by `lookup_by_name` under the account reached by the preceding segments, and
the whole path reaches `a`. -/
inductive Resolves (bk : Book) : AccountPath → List String → AccountPath → Prop where
  | single {r : AccountPath} {n : String} {a : AccountPath}
      (h : lookup_by_name bk r n = some a) : Resolves bk r [n] a
  | cons {r : AccountPath} {n : String} {a b : AccountPath} {rest : List String}
      (h : lookup_by_name bk r n = some a) (hr : Resolves bk a rest b) :
      Resolves bk r (n :: rest) b

/-- The `as_tuple()` values of the entries a run actually posted, read off the
outcome list aligned with the entry list. -/
def postedTuples (l : List Entry) (rs : List EntryResult) : List EntryTuple :=
  ((l.zip rs).filter (fun pr => decide (pr.2 = EntryResult.posted))).map
    (fun pr => pr.1.as_tuple)

/-- The transaction `add_transaction` commits for an entry, determined by the
account resolutions and the amount conversion. -/
def postedTxOf (bk : Book) (c : Currency) (e : Entry) : Option Tx :=
  match lookup_account bk e.account, lookup_account bk e.split_category,
      to_gnc_numeric e c 1 with
  | .ok acc, .ok acc2, some amt =>
    some { descr := e.memo, date := e.date,
           splits := [{ account := acc, amount := amt },
                      { account := acc2, amount := -amt }] }
  | _, _, _ => none

/-- The two-split transaction shape `add_transaction` commits, given the
resolved accounts and the converted amount. -/
def canonTx (e : Entry) (acc acc2 : AccountPath) (amt : Int) : Tx :=
  { descr := e.memo, date := e.date,
    splits := [{ account := acc, amount := amt },
               { account := acc2, amount := -amt }] }

/-- Both account paths of the entry resolve and its amount text parses. -/
def entryOkB (bk : Book) (c : Currency) (e : Entry) : Bool :=
  (match lookup_account bk e.account with | .ok _ => true | .error _ => false) &&
  (match lookup_account bk e.split_category with | .ok _ => true | .error _ => false) &&
  (to_gnc_numeric e c 1).isSome

/-- Invariant for the idempotence argument: the book keeps the reference
account list and every transaction in it is the posting of some entry of
the master list `L`. -/
def canonBook (book0 : Book) (c : Currency) (L : List Entry) (bk : Book) : Prop :=
  bk.accounts = book0.accounts ∧
  ∀ t ∈ bk.transactions, ∃ e ∈ L, postedTxOf book0 c e = some t

/-- Invariant for the idempotence argument: every tuple in the in-run
duplicate set belongs to an entry of `L` whose posting is already in the
book. -/
def seenCov (book0 : Book) (c : Currency) (L : List Entry) (bk : Book)
    (seen : List EntryTuple) : Prop :=
  ∀ e : Entry, e.as_tuple ∈ seen → e ∈ L →
    ∃ t ∈ bk.transactions, postedTxOf book0 c e = some t

/-- Currency used by the concrete scenarios (fraction 100). -/
def cCur : Currency := { fraction := 100, mnemonic := "EUR" }

/-- Book for the spec's two-file scenario: the accounts of the scenario and no
prior transactions. -/
def cBook : Book :=
  { accounts := [["Assets"], ["Assets", "Checking"], ["Expenses"], ["Expenses", "Food"]],
    transactions := [] }

/-- 2023-01-05, the scenario's date. -/
def cDate : DateT := { year := 2023, month := 1, day := 5 }

/-- The scenario entry `(2023-01-05, "Coffee", Assets:Checking, Expenses:Food, "-3.50")`. -/
def cEntry : Entry :=
  { date := cDate, memo := "Coffee", account := "Assets:Checking",
    split_category := "Expenses:Food", split_amount := "-3.50" }

/-- The transaction the scenario posts. -/
def cTx : Tx :=
  { descr := "Coffee", date := cDate,
    splits := [{ account := ["Assets", "Checking"], amount := -350 },
               { account := ["Expenses", "Food"], amount := 350 }] }

/-- The scenario book after the one posting. -/
def cBookAfter : Book :=
  { accounts := cBook.accounts, transactions := [cTx] }

/-- Book for the idempotence counterexample: three accounts, no
transactions. -/
def xBook : Book := { accounts := [["A"], ["B"], ["C"]], transactions := [] }

/-- 2023-01-01. -/
def xD1 : DateT := { year := 2023, month := 1, day := 1 }

/-- 2023-01-02. -/
def xD2 : DateT := { year := 2023, month := 1, day := 2 }

/-- First counterexample entry: memo "M", account A, category B, amount 1. -/
def xE1 : Entry :=
  { date := xD1, memo := "M", account := "A", split_category := "B", split_amount := "1" }

/-- Second counterexample entry: the same memo "M" but a different date,
category and amount. -/
def xE2 : Entry :=
  { date := xD2, memo := "M", account := "A", split_category := "C", split_amount := "2" }

/-- The book after the first import run of the counterexample: both entries
posted, two transactions sharing the description "M". -/
def xBook1 : Book :=
  { accounts := xBook.accounts,
    transactions :=
      [{ descr := "M", date := xD1,
         splits := [{ account := ["A"], amount := 100 }, { account := ["B"], amount := -100 }] },
       { descr := "M", date := xD2,
         splits := [{ account := ["A"], amount := 200 }, { account := ["C"], amount := -200 }] }] }

/-- The book after the second import run of the counterexample: `xE2` was
posted again, the description-first lookup having returned the `xD1`
transaction for it. -/
def xBook2 : Book :=
  { accounts := xBook.accounts,
    transactions := xBook1.transactions ++
      [{ descr := "M", date := xD2,
         splits := [{ account := ["A"], amount := 200 }, { account := ["C"], amount := -200 }] }] }

/-- Entry of the run-cache failing input. -/
def bugEntry : Entry :=
  { date := xD1, memo := "Rent", account := "A", split_category := "B", split_amount := "5" }

/-- File system for the run-cache failing input: the plain file `dir/a.qif`
opens and parses to one entry. -/
def bugParse : String → Except String (List Entry) := fun fn =>
  if fn = "dir/a.qif" then .ok [bugEntry] else .error "open failed"

/-- A parser stub for sources that must not be opened. -/
def noParse : String → Except String (List Entry) := fun _ => .error "opened"

/-- A device retrieval stub failing for every file. -/
def noMtp : String → String → Except String (List Entry) := fun _ _ => .error "device error"

/-- Book for witnesses: two flat accounts. -/
def wBook : Book := { accounts := [["A"], ["B"]], transactions := [] }

/-- Witness entry: memo "W", account A, category B, amount "1.50". -/
def wE : Entry :=
  { date := xD2, memo := "W", account := "A", split_category := "B", split_amount := "1.50" }

/-- The transaction posting the witness entry commits. -/
def wTx : Tx :=
  { descr := "W", date := xD2,
    splits := [{ account := ["A"], amount := 150 }, { account := ["B"], amount := -150 }] }

/-- The book after posting the witness entry. -/
def wBook1 : Book :=
  { accounts := wBook.accounts, transactions := [wTx] }

/-- Witness entry whose amount text uses the comma separator. -/
def wE12c : Entry :=
  { date := xD1, memo := "V", account := "A", split_category := "B", split_amount := "12,34" }

/-- Witness entry whose amount text uses the dot separator. -/
def wE12d : Entry :=
  { date := xD1, memo := "V", account := "A", split_category := "B", split_amount := "12.34" }

/-- The result of posting the dot-separator witness entry into `wBook`. -/
def wBookV : Book :=
  { accounts := wBook.accounts,
    transactions :=
      [{ descr := "V", date := xD1,
         splits := [{ account := ["A"], amount := 1234 },
                    { account := ["B"], amount := -1234 }] }] }

theorem exceptBind_ok {ε α β : Type} (a : α) (f : α → Except ε β) :
    (Except.ok a >>= f) = f a := rfl

theorem exceptBind_error {ε α β : Type} (e : ε) (f : α → Except ε β) :
    ((Except.error e : Except ε α) >>= f) = Except.error e := rfl

theorem mapComma_eq_self (l : List Char) (h : ',' ∉ l) :
    l.map (fun c => if c = ',' then '.' else c) = l := by
  induction l with
  | nil => rfl
  | cons c cs ih =>
    simp only [List.mem_cons, not_or] at h
    have hc : ¬(c = ',') := fun hc => h.1 hc.symm
    simp only [List.map_cons, if_neg hc, ih h.2]

theorem tdiv_pow_eq_ratTrunc (a : Int) (k : Nat) :
    Int.tdiv a ((10 : Int) ^ k) = ratTrunc ((a : ℚ) / (10 : ℚ) ^ k) := by
  have h10 : ((10 : ℚ) ^ k) = ((10 ^ k : ℕ) : ℚ) := by push_cast; ring
  rcases le_or_lt 0 a with ha | ha
  · have hq : (0 : ℚ) ≤ (a : ℚ) / (10 : ℚ) ^ k := by positivity
    rw [ratTrunc, if_pos hq, h10, Rat.floor_intCast_div_natCast,
      Int.tdiv_eq_ediv ha (by positivity)]
    push_cast
    rfl
  · have hq : (a : ℚ) / (10 : ℚ) ^ k < 0 := by
      apply div_neg_of_neg_of_pos
      · exact_mod_cast ha
      · positivity
    have hrw : ((a : ℚ) / (10 : ℚ) ^ k) = -((((-a : ℤ) : ℚ)) / (10 : ℚ) ^ k) := by
      push_cast
      ring
    rw [ratTrunc, if_neg (not_le.mpr hq), hrw, Int.ceil_neg, h10,
      Rat.floor_intCast_div_natCast]
    have h2 : Int.tdiv (-a) ((10 : Int) ^ k) = (-a) / ((10 ^ k : ℕ) : ℤ) := by
      rw [Int.tdiv_eq_ediv (by omega) (by positivity)]
      push_cast
      rfl
    rw [← h2, Int.neg_tdiv, neg_neg]

/-- C5: with `date_from` set, an entry strictly earlier is skipped with the
book and the in-run duplicate set unchanged — before any duplicate check, for
every book and set, so no ledger lookup can be involved; an entry not earlier
(in particular one dated exactly `date_from`, by the irreflexivity conjunct)
is never the filtered outcome. -/
theorem date_filter_boundary (c : Currency) (df : DateT) (bk : Book)
    (seen : List EntryTuple) (item : Entry) :
    (DateT.lt item.date df = true →
      step c (some df) bk seen item = .ok ((bk, seen), .filtered)) ∧
    (DateT.lt item.date df = false →
      ∀ st r, step c (some df) bk seen item = .ok (st, r) → r ≠ .filtered) ∧
    DateT.lt df df = false := by
  refine ⟨fun h => ?_, fun h st r hr => ?_, ?_⟩
  · simp [step, belowDateFrom, h]
  · simp only [step, belowDateFrom, h, Bool.false_eq_true, if_false] at hr
    cases hib : item_already_in_book bk item c with
    | error e =>
      rw [hib, exceptBind_error] at hr
      cases hr
    | ok b =>
      rw [hib, exceptBind_ok] at hr
      split at hr
      · simp only [Except.ok.injEq, Prod.mk.injEq] at hr
        rcases hr with ⟨-, hr2⟩
        rw [← hr2]
        simp
      · cases hadd : add_transaction bk item c with
        | error e => rw [hadd, exceptBind_error] at hr; cases hr
        | ok bk2 =>
          rw [hadd, exceptBind_ok] at hr
          simp only [Except.ok.injEq, Prod.mk.injEq] at hr
          rcases hr with ⟨-, hr2⟩
          rw [← hr2]
          simp
  · simp [DateT.lt]

/-- Witness for C5: an entry dated 2023-01-01 against the floor 2023-01-02 is
filtered with the state unchanged. -/
theorem date_filter_boundary_witness :
    step cCur (some xD2) wBook [] bugEntry = .ok ((wBook, []), .filtered) :=
  (date_filter_boundary cCur xD2 wBook [] bugEntry).1 rfl

/-- C7: `to_gnc_numeric` gives identical results on amount texts that differ
only in using ',' rather than '.' as the fractional separator, for any
comma-free surrounding digit strings, either sign argument and any
currency. -/
theorem decimal_separator_tolerance (e1 e2 : Entry) (c : Currency) (p : Int)
    (a b : List Char) (ha : ',' ∉ a) (hb : ',' ∉ b)
    (h1 : e1.split_amount = String.mk (a ++ ',' :: b))
    (h2 : e2.split_amount = String.mk (a ++ '.' :: b)) :
    to_gnc_numeric e1 c p = to_gnc_numeric e2 c p := by
  have hdata : ∀ l : List Char, (String.mk l).data = l := fun _ => rfl
  have key : pyReplaceCommaDot e1.split_amount = pyReplaceCommaDot e2.split_amount := by
    rw [h1, h2]
    simp only [pyReplaceCommaDot, hdata]
    congr 1
    simp [List.map_append, mapComma_eq_self a ha, mapComma_eq_self b hb]
  simp only [to_gnc_numeric, key]

/-- Witness for C7: `"12,34"` and `"12.34"` convert identically. -/
theorem decimal_separator_tolerance_witness :
    to_gnc_numeric wE12c cCur 1 = to_gnc_numeric wE12d cCur 1 :=
  decimal_separator_tolerance wE12c wE12d cCur 1 ['1', '2'] ['3', '4']
    (by decide) (by decide) rfl rfl

/-- C6: every transaction `add_transaction` commits has exactly two splits
whose amounts are the truncation toward zero of the entry's decimal value
times the currency fraction, and its negation — so they sum to zero; for
amount text "12.34" and fraction 100 they are exactly 1234 and -1234. -/
theorem balanced_fixed_point_posting (bk bk2 : Book) (e : Entry) (c : Currency)
    (m : Int) (k : Nat)
    (hp : parseDecimal (pyReplaceCommaDot e.split_amount) = some (m, k))
    (hadd : add_transaction bk e c = .ok bk2) :
    ∃ tx acc acc2,
      bk2.transactions = bk.transactions ++ [tx] ∧
      tx.descr = e.memo ∧ tx.date = e.date ∧
      tx.splits.map Split.account = [acc, acc2] ∧
      tx.splits.map Split.amount =
        [ratTrunc (((m : ℚ) / (10 : ℚ) ^ k) * (c.fraction : ℚ)),
         -ratTrunc (((m : ℚ) / (10 : ℚ) ^ k) * (c.fraction : ℚ))] ∧
      (tx.splits.map Split.amount).sum = 0 ∧
      (e.split_amount = "12.34" → c.fraction = 100 →
        tx.splits.map Split.amount = [1234, -1234]) := by
  have htg1 : to_gnc_numericE e c 1 =
      .ok (Int.tdiv (m * c.fraction) ((10 : Int) ^ k) * 1) := by
    simp [to_gnc_numericE, to_gnc_numeric, hp]
  have htg2 : to_gnc_numericE e c (-1) =
      .ok (Int.tdiv (m * c.fraction) ((10 : Int) ^ k) * (-1)) := by
    simp [to_gnc_numericE, to_gnc_numeric, hp]
  have hval : Int.tdiv (m * c.fraction) ((10 : Int) ^ k) =
      ratTrunc (((m : ℚ) / (10 : ℚ) ^ k) * (c.fraction : ℚ)) := by
    rw [tdiv_pow_eq_ratTrunc]
    congr 1
    push_cast
    ring
  simp only [add_transaction] at hadd
  cases hacc : lookup_account bk e.account with
  | error msg => rw [hacc, exceptBind_error] at hadd; cases hadd
  | ok acc =>
  rw [hacc, exceptBind_ok, htg1, exceptBind_ok] at hadd
  cases hacc2 : lookup_account bk e.split_category with
  | error msg => rw [hacc2, exceptBind_error] at hadd; cases hadd
  | ok acc2 =>
  rw [hacc2, exceptBind_ok, htg2, exceptBind_ok] at hadd
  simp only [Except.ok.injEq] at hadd
  subst hadd
  refine ⟨_, acc, acc2, rfl, rfl, rfl, rfl, ?_, ?_, ?_⟩
  · simp only [List.map_cons, List.map_nil, hval]
    simp [mul_one, mul_neg_one]
  · simp
  · intro hs hf
    rw [hs] at hp
    have hp2 : (some ((1234 : Int), (2 : Nat)) : Option (Int × Nat)) = some (m, k) := by
      rw [← hp]; rfl
    simp only [Option.some.injEq, Prod.mk.injEq] at hp2
    rw [← hp2.1, ← hp2.2, hf]
    simp only [List.map_cons, List.map_nil]
    decide

/-- Witness for C6 at the concrete round-trip input: posting the "12.34"
entry with fraction 100 commits split amounts 1234 and -1234. -/
theorem balanced_fixed_point_witness :
    ∃ tx acc acc2,
      wBookV.transactions = wBook.transactions ++ [tx] ∧
      tx.descr = wE12d.memo ∧ tx.date = wE12d.date ∧
      tx.splits.map Split.account = [acc, acc2] ∧
      tx.splits.map Split.amount =
        [ratTrunc ((((1234 : Int) : ℚ) / (10 : ℚ) ^ (2 : Nat)) * (cCur.fraction : ℚ)),
         -ratTrunc ((((1234 : Int) : ℚ) / (10 : ℚ) ^ (2 : Nat)) * (cCur.fraction : ℚ))] ∧
      (tx.splits.map Split.amount).sum = 0 ∧
      (wE12d.split_amount = "12.34" → cCur.fraction = 100 →
        tx.splits.map Split.amount = [1234, -1234]) :=
  balanced_fixed_point_posting wBook wBookV wE12d cCur 1234 2 rfl rfl

theorem splitChars_ne_nil (sep : Char) (l : List Char) : splitChars sep l ≠ [] := by
  cases l with
  | nil => simp [splitChars]
  | cons c cs =>
    simp only [splitChars]
    cases hs : splitChars sep cs with
    | nil => simp
    | cons g gs => by_cases hc : c = sep <;> simp [hc]

theorem pySplit_ne_nil (s : String) (sep : Char) : pySplit s sep ≠ [] := by
  simp only [pySplit, ne_eq, List.map_eq_nil_iff]
  exact splitChars_ne_nil sep s.data

theorem lookup_by_name_mem (bk : Book) (r : AccountPath) (n : String) (a : AccountPath)
    (h : lookup_by_name bk r n = some a) : a ∈ bk.accounts :=
  List.mem_of_find?_eq_some h

/-- C8: `lookup_account_by_path` on a non-empty path raises exactly when some
segment fails to resolve by `lookup_by_name` under the account reached by the
preceding segments; when every segment resolves it returns the account at the
end of the path, an account that already exists in the book (nothing is
created); and the colon-split of any account name is never empty, so
`lookup_account` always passes a non-empty path. -/
theorem account_resolution (bk : Book) (root : AccountPath) (path : List String)
    (h : path ≠ []) :
    ((∃ msg, lookup_account_by_path bk root path = .error msg) ↔
      ¬∃ a, Resolves bk root path a) ∧
    (∀ a, lookup_account_by_path bk root path = .ok a →
      Resolves bk root path a ∧ a ∈ bk.accounts) ∧
    (∀ nm : String, pySplit nm ':' ≠ []) := by
  induction path generalizing root with
  | nil => exact absurd rfl h
  | cons p rest ih =>
    refine ⟨?_, ?_, fun nm => pySplit_ne_nil nm ':'⟩
    · cases hl : lookup_by_name bk root p with
      | none =>
        constructor
        · rintro - ⟨a, hres⟩
          cases hres with
          | single hs => rw [hl] at hs; cases hs
          | cons hs hr => rw [hl] at hs; cases hs
        · intro hne
          refine ⟨"Account path " ++ String.intercalate ":" (p :: rest) ++ " not found", ?_⟩
          simp [lookup_account_by_path, hl]
      | some acc =>
        by_cases hrest : rest = []
        · subst hrest
          have heval : lookup_account_by_path bk root [p] = .ok acc := by
            simp [lookup_account_by_path, hl]
          rw [heval]
          constructor
          · rintro ⟨msg, hmsg⟩; cases hmsg
          · intro hne
            exact absurd ⟨acc, Resolves.single hl⟩ hne
        · have heval : lookup_account_by_path bk root (p :: rest) =
              lookup_account_by_path bk acc rest := by
            simp [lookup_account_by_path, hl, hrest]
          rw [heval, (ih acc hrest).1]
          constructor
          · rintro hne ⟨a, hres⟩
            cases hres with
            | single hs => exact hrest rfl
            | cons hs hr =>
              rw [hl] at hs
              injection hs with hs2
              subst hs2
              exact hne ⟨_, hr⟩
          · rintro hne ⟨b, hb⟩
            exact hne ⟨b, Resolves.cons hl hb⟩
    · intro a hok
      cases hl : lookup_by_name bk root p with
      | none => simp [lookup_account_by_path, hl] at hok
      | some acc =>
        by_cases hrest : rest = []
        · subst hrest
          have heval : lookup_account_by_path bk root [p] = .ok acc := by
            simp [lookup_account_by_path, hl]
          rw [heval] at hok
          injection hok with hok2
          subst hok2
          exact ⟨Resolves.single hl, lookup_by_name_mem bk root p acc hl⟩
        · have heval : lookup_account_by_path bk root (p :: rest) =
              lookup_account_by_path bk acc rest := by
            simp [lookup_account_by_path, hl, hrest]
          rw [heval] at hok
          obtain ⟨hres, hmem⟩ := (ih acc hrest).2.1 a hok
          exact ⟨Resolves.cons hl hres, hmem⟩

/-- Witness for C8: resolving the existing path ["A"] from the root of the
witness book succeeds, yields a book account, and resolves segment-wise. -/
theorem account_resolution_witness :
    Resolves wBook [] ["A"] ["A"] ∧ ["A"] ∈ wBook.accounts :=
  (account_resolution wBook [] ["A"] (by decide)).2.1 ["A"] rfl

/-- C2, evaluated at the failing input: the first `read_entries` call on the
plain file "dir/a.qif" parses it and records the full path, yet a second call
on the very same source identifier re-opens and re-parses the file,
contributing its entries again, because the skip test looks for the basename
"a.qif" which was never recorded. -/
theorem source_cache_bug :
    read_entries bugParse .emptyR noMtp [] "dir/a.qif" [] =
      (.ok [bugEntry], ["dir/a.qif"]) ∧
    read_entries bugParse .emptyR noMtp [] "dir/a.qif" ["dir/a.qif"] =
      (.ok [bugEntry], ["dir/a.qif", "dir/a.qif"]) ∧
    basename "dir/a.qif" = "a.qif" :=
  ⟨rfl, rfl, rfl⟩

/-- Counterexample to C3 as stated: in the book holding two transactions with
description "M" (dated 2023-01-01 and 2023-01-02), the entry matching the
second one IS matched by some transaction of its account — the claimed
condition holds — yet `item_already_in_book` answers false, because the
description-first search returns the first "M" transaction and its date
differs. -/
theorem ledger_dup_counterexample :
    item_already_in_book xBook1 xE2 cCur = .ok false ∧
    claimedLedgerDuplicate xBook1 xE2 cCur = true := ⟨rfl, rfl⟩

/-- C3 amended: `item_already_in_book` returns True iff the FIRST transaction
of the resolved account whose description equals the entry's memo exists, and
that one transaction's posted date equals the entry's date at day granularity
and its amount in the account equals the entry's scaled amount.  (A fully
matching transaction hidden behind an earlier same-description one is not
found.) -/
theorem ledger_dup_first_by_desc (bk : Book) (e : Entry) (c : Currency)
    (acc : AccountPath) (amt : Int)
    (hacc : lookup_account bk e.account = .ok acc)
    (hamt : to_gnc_numeric e c 1 = some amt) :
    item_already_in_book bk e c = .ok true ↔
      ∃ t, findTransByDesc bk acc e.memo = some t ∧ t.date = e.date ∧
        getAccountAmount t acc = amt := by
  simp only [item_already_in_book, hacc, exceptBind_ok]
  cases hf : findTransByDesc bk acc e.memo with
  | none => simp
  | some t =>
    by_cases hd : t.date = e.date
    · simp only [if_pos hd]
      have htE : to_gnc_numericE e c 1 = .ok amt := by simp [to_gnc_numericE, hamt]
      rw [htE, exceptBind_ok]
      constructor
      · intro hok
        injection hok with h2
        exact ⟨t, rfl, hd, of_decide_eq_true h2⟩
      · rintro ⟨t2, ht2, -, hamt2⟩
        injection ht2 with ht2e
        subst ht2e
        simp [hamt2]
    · simp only [if_neg hd]
      constructor
      · intro hok
        injection hok with h2
        cases h2
      · rintro ⟨t2, ht2, hd2, -⟩
        injection ht2 with ht2e
        subst ht2e
        exact absurd hd2 hd

/-- Witness for the amended C3: the witness entry is detected in the book that
holds exactly its posting. -/
theorem ledger_dup_first_by_desc_witness :
    item_already_in_book wBook1 wE cCur = .ok true :=
  (ledger_dup_first_by_desc wBook1 wE cCur ["A"] 150 rfl rfl).mpr ⟨wTx, rfl, rfl, rfl⟩

theorem step_state (c : Currency) (df : Option DateT) (bk : Book)
    (seen : List EntryTuple) (item : Entry) (bk2 : Book) (seen2 : List EntryTuple)
    (r : EntryResult)
    (h : step c df bk seen item = .ok ((bk2, seen2), r)) :
    (r ≠ .posted ∧ bk2 = bk ∧ seen2 = seen) ∨
    (r = .posted ∧ seen2 = seen ++ [item.as_tuple] ∧ item.as_tuple ∉ seen ∧
      add_transaction bk item c = .ok bk2) := by
  simp only [step] at h
  split at h
  · simp only [Except.ok.injEq, Prod.mk.injEq] at h
    rcases h with ⟨⟨rfl, rfl⟩, rfl⟩
    exact Or.inl ⟨by simp, rfl, rfl⟩
  · cases hib : item_already_in_book bk item c with
    | error msg => rw [hib, exceptBind_error] at h; cases h
    | ok b =>
      rw [hib, exceptBind_ok] at h
      split at h
      · simp only [Except.ok.injEq, Prod.mk.injEq] at h
        rcases h with ⟨⟨rfl, rfl⟩, rfl⟩
        exact Or.inl ⟨by simp, rfl, rfl⟩
      · next hcond =>
        cases hadd : add_transaction bk item c with
        | error msg => rw [hadd, exceptBind_error] at h; cases h
        | ok bk' =>
          rw [hadd, exceptBind_ok] at h
          simp only [Except.ok.injEq, Prod.mk.injEq] at h
          rcases h with ⟨⟨rfl, rfl⟩, rfl⟩
          simp only [Bool.or_eq_true, not_or, decide_eq_true_eq] at hcond
          exact Or.inr ⟨rfl, rfl, hcond.2, rfl⟩

theorem postedTuples_cons (e : Entry) (l : List Entry) (r : EntryResult)
    (rs : List EntryResult) :
    postedTuples (e :: l) (r :: rs) =
      (if r = .posted then [e.as_tuple] else []) ++ postedTuples l rs := by
  by_cases hr : r = .posted <;> simp [postedTuples, hr]

theorem runEntries_nodup_aux (c : Currency) (df : Option DateT) (l : List Entry) :
    ∀ (bk : Book) (seen : List EntryTuple) (b2 : Book) (s2 : List EntryTuple)
      (rs : List EntryResult),
      runEntries c df bk seen l = .ok (b2, s2, rs) →
      (postedTuples l rs).Nodup ∧
        (∀ t ∈ postedTuples l rs, t ∉ seen ∧ t ∈ s2) ∧
        (∀ t ∈ seen, t ∈ s2) := by
  induction l with
  | nil =>
    intro bk seen b2 s2 rs h
    simp only [runEntries, Except.ok.injEq, Prod.mk.injEq] at h
    rcases h with ⟨-, rfl, rfl⟩
    simp [postedTuples]
  | cons e l ih =>
    intro bk seen b2 s2 rs h
    simp only [runEntries] at h
    cases hs : step c df bk seen e with
    | error msg => rw [hs, exceptBind_error] at h; cases h
    | ok pr =>
      obtain ⟨⟨bk1, seen1⟩, r⟩ := pr
      rw [hs, exceptBind_ok] at h
      cases hrest : runEntries c df bk1 seen1 l with
      | error msg => rw [hrest, exceptBind_error] at h; cases h
      | ok tri =>
        obtain ⟨b2', s2', rs'⟩ := tri
        rw [hrest, exceptBind_ok] at h
        simp only [Except.ok.injEq, Prod.mk.injEq] at h
        rcases h with ⟨rfl, rfl, rfl⟩
        obtain ⟨ihn, ihm, ihsub⟩ := ih bk1 seen1 b2' s2' rs' hrest
        rcases step_state c df bk seen e bk1 seen1 r hs with
          ⟨hnp, rfl, rfl⟩ | ⟨rfl, rfl, hnotin, hadd⟩
        · rw [postedTuples_cons, if_neg hnp, List.nil_append]
          exact ⟨ihn, ihm, ihsub⟩
        · rw [postedTuples_cons, if_pos rfl]
          simp only [List.singleton_append]
          refine ⟨List.nodup_cons.mpr ⟨?_, ihn⟩, ?_, ?_⟩
          · intro hmem
            exact (ihm e.as_tuple hmem).1
              (List.mem_append_right seen (List.mem_singleton.mpr rfl))
          · intro t ht
            rcases List.mem_cons.mp ht with rfl | htl
            · exact ⟨hnotin,
                ihsub e.as_tuple (List.mem_append_right seen (List.mem_singleton.mpr rfl))⟩
            · obtain ⟨h1, h2⟩ := ihm t htl
              exact ⟨fun hm => h1 (List.mem_append_left _ hm), h2⟩
          · intro t ht
            exact ihsub t (List.mem_append_left _ ht)

/-- C4: over any run of the loop, the posted entries have pairwise distinct
`as_tuple()` values — at most one posting per tuple; and in the spec's
two-file scenario, two field-identical "Coffee" entries in one run yield
exactly one posted transaction and one duplicate skip at which the entry's
tuple is in the in-run duplicate set (the run-level condition holds; the
in-session ledger lookup also already finds the first posting). -/
theorem in_run_dedup (c : Currency) (df : Option DateT) (bk b2 : Book)
    (seen s2 : List EntryTuple) (l : List Entry) (rs : List EntryResult)
    (hrun : runEntries c df bk seen l = .ok (b2, s2, rs)) :
    (postedTuples l rs).Nodup ∧
    write_transactions_to_gnucash cBook cCur [cEntry, cEntry] none =
      .ok (cBookAfter, [cEntry.as_tuple], [.posted, .duplicate true true]) :=
  ⟨(runEntries_nodup_aux c df l bk seen b2 s2 rs hrun).1, rfl⟩

/-- Witness for C4 at the scenario input. -/
theorem in_run_dedup_witness :
    (postedTuples [cEntry, cEntry] [.posted, .duplicate true true]).Nodup ∧
    write_transactions_to_gnucash cBook cCur [cEntry, cEntry] none =
      .ok (cBookAfter, [cEntry.as_tuple], [.posted, .duplicate true true]) :=
  in_run_dedup cCur none cBook cBookAfter [] [cEntry.as_tuple] [cEntry, cEntry]
    [.posted, .duplicate true true] rfl

theorem mtp_imported_sound (regex : Regex)
    (mtpGet : String → String → Except String (List Entry)) (l : List (String × String)) :
    ∀ (acc : List Entry) (imported : List String) (res : Except String (List Entry))
      (imp2 : List String),
      read_entries_from_mtp regex mtpGet l acc imported = (res, imp2) →
      ∀ x ∈ imp2, x ∈ imported ∨
        ∃ fid, (fid, x) ∈ l ∧ ∃ items, mtpGet fid x = .ok items := by
  induction l with
  | nil =>
    intro acc imported res imp2 h x hx
    simp only [read_entries_from_mtp, Prod.mk.injEq] at h
    rcases h with ⟨-, rfl⟩
    exact Or.inl hx
  | cons p rest ih =>
    obtain ⟨fid, fname⟩ := p
    intro acc imported res imp2 h x hx
    simp only [read_entries_from_mtp] at h
    split at h
    · split at h
      · rcases ih acc imported res imp2 h x hx with h1 | ⟨fid2, hmem, items, hok⟩
        · exact Or.inl h1
        · exact Or.inr ⟨fid2, List.mem_cons_of_mem _ hmem, items, hok⟩
      · cases hget : mtpGet fid fname with
        | error e =>
          simp only [hget, Prod.mk.injEq] at h
          rcases h with ⟨-, rfl⟩
          exact Or.inl hx
        | ok es =>
          simp only [hget] at h
          rcases ih (acc ++ es) (imported ++ [fname]) res imp2 h x hx with
            h1 | ⟨fid2, hmem, items, hok⟩
          · rcases List.mem_append.mp h1 with h2 | h2
            · exact Or.inl h2
            · have hxf : x = fname := List.mem_singleton.mp h2
              subst hxf
              exact Or.inr ⟨fid, List.mem_cons_self _ _, es, hget⟩
          · exact Or.inr ⟨fid2, List.mem_cons_of_mem _ hmem, items, hok⟩
    · rcases ih acc imported res imp2 h x hx with h1 | ⟨fid2, hmem, items, hok⟩
      · exact Or.inl h1
      · exact Or.inr ⟨fid2, List.mem_cons_of_mem _ hmem, items, hok⟩

/-- C9: any identifier present in the set `read_entries` returns was either
there before the call, or is the plain-file source itself with its open+parse
having succeeded, or is a device filename listed by the device whose
retrieve+parse succeeded — so a source whose opening, retrieval or parsing
raises is never marked processed. -/
theorem runcache_post_parse (parseFile : String → Except String (List Entry))
    (regex : Regex) (mtpGet : String → String → Except String (List Entry))
    (mtpList : List (String × String)) (fn : String) (imported : List String)
    (res : Except String (List Entry)) (imp2 : List String)
    (h : read_entries parseFile regex mtpGet mtpList fn imported = (res, imp2)) :
    ∀ x ∈ imp2, x ∈ imported ∨
      (isMtpSource fn = false ∧ x = fn ∧ ∃ items, parseFile fn = .ok items) ∨
      (isMtpSource fn = true ∧ ∃ fid, (fid, x) ∈ mtpList ∧
        ∃ items, mtpGet fid x = .ok items) := by
  intro x hx
  by_cases hm : isMtpSource fn = true
  · simp only [read_entries, hm, if_true] at h
    rcases mtp_imported_sound regex mtpGet mtpList [] imported res imp2 h x hx with h1 | h2
    · exact Or.inl h1
    · exact Or.inr (Or.inr ⟨hm, h2⟩)
  · have hm2 : isMtpSource fn = false := by
      cases hval : isMtpSource fn
      · rfl
      · exact absurd hval hm
    simp only [read_entries, hm2, Bool.false_eq_true, if_false] at h
    split at h
    · simp only [Prod.mk.injEq] at h
      rcases h with ⟨-, rfl⟩
      exact Or.inl hx
    · cases hp : parseFile fn with
      | error e =>
        simp only [hp, Prod.mk.injEq] at h
        rcases h with ⟨-, rfl⟩
        exact Or.inl hx
      | ok items =>
        simp only [hp, Prod.mk.injEq] at h
        rcases h with ⟨-, rfl⟩
        rcases List.mem_append.mp hx with h1 | h1
        · exact Or.inl h1
        · exact Or.inr (Or.inl ⟨hm2, List.mem_singleton.mp h1, items, rfl⟩)

/-- Witness for C9: after the successful parse of "dir/a.qif" from the empty
set, its recorded identifier satisfies the disjunction with a successful
parse. -/
theorem runcache_post_parse_witness :
    "dir/a.qif" ∈ ([] : List String) ∨
      (isMtpSource "dir/a.qif" = false ∧ "dir/a.qif" = "dir/a.qif" ∧
        ∃ items, bugParse "dir/a.qif" = .ok items) ∨
      (isMtpSource "dir/a.qif" = true ∧
        ∃ fid, (fid, "dir/a.qif") ∈ ([] : List (String × String)) ∧
          ∃ items, noMtp fid "dir/a.qif" = .ok items) :=
  runcache_post_parse bugParse .emptyR noMtp [] "dir/a.qif" [] (.ok [bugEntry])
    ["dir/a.qif"] rfl "dir/a.qif" (by decide)

theorem reMatch_iff_take (r : Regex) (s : List Char) :
    reMatch r s = true ↔ ∃ n, matchesFull r (s.take n) = true := by
  induction s generalizing r with
  | nil =>
    simp only [reMatch, List.take_nil]
    constructor
    · intro h
      exact ⟨0, h⟩
    · rintro ⟨n, h⟩
      exact h
  | cons c cs ih =>
    simp only [reMatch, Bool.or_eq_true]
    constructor
    · rintro (h | h)
      · exact ⟨0, h⟩
      · obtain ⟨n, hn⟩ := (ih (r.deriv c)).mp h
        exact ⟨n + 1, hn⟩
    · rintro ⟨n, hn⟩
      cases n with
      | zero => exact Or.inl hn
      | succ n => exact Or.inr ((ih (r.deriv c)).mpr ⟨n, hn⟩)

theorem mtp_skip_nonmatching (regex : Regex)
    (mtpGet : String → String → Except String (List Entry)) (fid : String)
    (fname : String) (hm : reMatch regex fname.data = false) (l1 : List (String × String)) :
    ∀ (l2 : List (String × String)) (acc : List Entry) (imported : List String),
      read_entries_from_mtp regex mtpGet (l1 ++ (fid, fname) :: l2) acc imported =
        read_entries_from_mtp regex mtpGet (l1 ++ l2) acc imported := by
  induction l1 with
  | nil =>
    intro l2 acc imported
    simp only [List.nil_append, read_entries_from_mtp, hm, Bool.false_eq_true, if_false]
  | cons p rest ih =>
    intro l2 acc imported
    obtain ⟨f, n⟩ := p
    simp only [List.cons_append, read_entries_from_mtp]
    by_cases h1 : reMatch regex n.data = true
    · simp only [h1, if_true]
      by_cases h2 : n ∈ imported
      · simp only [if_pos h2]
        exact ih l2 acc imported
      · simp only [if_neg h2]
        cases hget : mtpGet f n with
        | error e => rfl
        | ok es => exact ih l2 (acc ++ es) (imported ++ [n])
    · have h1b : reMatch regex n.data = false := by
        cases hval : reMatch regex n.data
        · rfl
        · exact absurd hval h1
      simp only [h1b, Bool.false_eq_true, if_false]
      exact ih l2 acc imported

theorem mtp_process_matching (regex : Regex)
    (mtpGet : String → String → Except String (List Entry)) (fid : String)
    (fname : String) (acc : List Entry) (imported : List String)
    (hm : reMatch regex fname.data = true) (hni : fname ∉ imported) :
    read_entries_from_mtp regex mtpGet [(fid, fname)] acc imported =
      match mtpGet fid fname with
      | .error e => (.error e, imported)
      | .ok es => (.ok (acc ++ es), imported ++ [fname]) := by
  simp only [read_entries_from_mtp, hm, if_true, if_neg hni]

/-- C10: `reMatch` is exactly `re.match` anchored at position zero — it
succeeds iff some initial segment of the input is in the pattern's language,
and it is not a full-string match (pattern "ab" matches filename "abc");
in the device loop a filename the pattern does not match at position zero
contributes no entries and is never recorded (deleting it from the listing
changes nothing), while a matching filename not yet imported is retrieved and
parsed, its entries appended and its name recorded — independently per
file. -/
theorem mtp_regex_filtering (regex : Regex)
    (mtpGet : String → String → Except String (List Entry))
    (fid : String) (fname : String) (l1 l2 : List (String × String))
    (acc : List Entry) (imported : List String) :
    (∀ s : List Char, reMatch regex s = true ↔
      ∃ n, matchesFull regex (s.take n) = true) ∧
    (reMatch (.catR (.charR 'a') (.charR 'b')) ['a', 'b', 'c'] = true ∧
      matchesFull (.catR (.charR 'a') (.charR 'b')) ['a', 'b', 'c'] = false) ∧
    (reMatch regex fname.data = false →
      read_entries_from_mtp regex mtpGet (l1 ++ (fid, fname) :: l2) acc imported =
        read_entries_from_mtp regex mtpGet (l1 ++ l2) acc imported) ∧
    (reMatch regex fname.data = true → fname ∉ imported →
      read_entries_from_mtp regex mtpGet [(fid, fname)] acc imported =
        match mtpGet fid fname with
        | .error e => (.error e, imported)
        | .ok es => (.ok (acc ++ es), imported ++ [fname])) :=
  ⟨fun s => reMatch_iff_take regex s, ⟨by decide, by decide⟩,
    fun hm => mtp_skip_nonmatching regex mtpGet fid fname hm l1 l2 acc imported,
    fun hm hni => mtp_process_matching regex mtpGet fid fname acc imported hm hni⟩

/-- Witness for C10: a filename the pattern does not match at position zero
is processed as if absent from the device listing. -/
theorem mtp_regex_filtering_witness :
    read_entries_from_mtp (.charR 'z') noMtp ([] ++ ("7", "a.qif") :: []) [] [] =
      read_entries_from_mtp (.charR 'z') noMtp ([] ++ []) [] [] :=
  (mtp_regex_filtering (.charR 'z') noMtp "7" "a.qif" [] [] [] []).2.2.1 rfl

theorem as_tuple_inj (e1 e2 : Entry) (h : e1.as_tuple = e2.as_tuple) : e1 = e2 := by
  cases e1
  cases e2
  simp only [Entry.as_tuple, Prod.mk.injEq] at h
  obtain ⟨h1, h2, h3, h4, h5⟩ := h
  simp_all

theorem lookup_by_name_accounts (bk bk2 : Book) (h : bk.accounts = bk2.accounts)
    (acct : AccountPath) (n : String) :
    lookup_by_name bk acct n = lookup_by_name bk2 acct n := by
  simp [lookup_by_name, h]

theorem lookup_path_accounts (bk bk2 : Book) (h : bk.accounts = bk2.accounts) :
    ∀ (path : List String) (acct : AccountPath),
      lookup_account_by_path bk acct path = lookup_account_by_path bk2 acct path := by
  intro path
  induction path with
  | nil => intro acct; rfl
  | cons p rest ih =>
    intro acct
    simp only [lookup_account_by_path, lookup_by_name_accounts bk bk2 h]
    cases lookup_by_name bk2 acct p with
    | none => rfl
    | some a =>
      by_cases hr : rest = [] <;> simp [hr, ih]

theorem lookup_account_accounts (bk bk2 : Book) (h : bk.accounts = bk2.accounts)
    (nm : String) : lookup_account bk nm = lookup_account bk2 nm :=
  lookup_path_accounts bk bk2 h (pySplit nm ':') []

theorem to_gnc_numeric_neg (e : Entry) (c : Currency) :
    to_gnc_numeric e c (-1) = (to_gnc_numeric e c 1).map (fun v => -v) := by
  simp only [to_gnc_numeric]
  cases parseDecimal (pyReplaceCommaDot e.split_amount) with
  | none => rfl
  | some p => simp [mul_one, mul_neg_one]

theorem entryOkB_iff (bk : Book) (c : Currency) (e : Entry) :
    entryOkB bk c e = true ↔
      (∃ acc, lookup_account bk e.account = .ok acc) ∧
      (∃ acc2, lookup_account bk e.split_category = .ok acc2) ∧
      (∃ amt, to_gnc_numeric e c 1 = some amt) := by
  cases h1 : lookup_account bk e.account <;>
    cases h2 : lookup_account bk e.split_category <;>
      simp [entryOkB, h1, h2, Option.isSome_iff_exists]

theorem getAccountAmount_canon (e : Entry) (acc acc2 : AccountPath)
    (amt : Int) (h : acc ≠ acc2) :
    getAccountAmount (canonTx e acc acc2 amt) acc = amt := by
  have h2 : ¬(acc2 = acc) := fun he => h he.symm
  simp [getAccountAmount, canonTx, h2]

theorem postedTxOf_eq (book0 : Book) (c : Currency) (e : Entry)
    (acc acc2 : AccountPath) (amt : Int)
    (hacc : lookup_account book0 e.account = .ok acc)
    (hacc2 : lookup_account book0 e.split_category = .ok acc2)
    (hamt : to_gnc_numeric e c 1 = some amt) :
    postedTxOf book0 c e = some (canonTx e acc acc2 amt) := by
  simp [postedTxOf, canonTx, hacc, hacc2, hamt]

theorem postedTxOf_shape (book0 : Book) (c : Currency) (e2 : Entry) (t : Tx)
    (h : postedTxOf book0 c e2 = some t) :
    ∃ acc acc2 amt, lookup_account book0 e2.account = .ok acc ∧
      lookup_account book0 e2.split_category = .ok acc2 ∧
      to_gnc_numeric e2 c 1 = some amt ∧
      t = canonTx e2 acc acc2 amt := by
  unfold postedTxOf at h
  cases h1 : lookup_account book0 e2.account with
  | error m => rw [h1] at h; cases h
  | ok acc =>
    rw [h1] at h
    cases h2 : lookup_account book0 e2.split_category with
    | error m => rw [h2] at h; cases h
    | ok acc2 =>
      rw [h2] at h
      cases h3 : to_gnc_numeric e2 c 1 with
      | none => rw [h3] at h; cases h
      | some amt =>
        rw [h3] at h
        injection h with h4
        exact ⟨acc, acc2, amt, rfl, rfl, rfl, h4.symm⟩

theorem findTransByDesc_canonical (book0 : Book) (c : Currency) (L : List Entry)
    (hMemo : ∀ e ∈ L, ∀ e2 ∈ L, e.memo = e2.memo → e = e2)
    (bk : Book) (e : Entry) (heL : e ∈ L)
    (hcanon : ∀ t ∈ bk.transactions, ∃ e2 ∈ L, postedTxOf book0 c e2 = some t)
    (acc acc2 : AccountPath) (amt : Int)
    (hacc : lookup_account book0 e.account = .ok acc)
    (hacc2 : lookup_account book0 e.split_category = .ok acc2)
    (hamt : to_gnc_numeric e c 1 = some amt)
    (hcov : ∃ t ∈ bk.transactions, postedTxOf book0 c e = some t) :
    findTransByDesc bk acc e.memo = some (canonTx e acc acc2 amt) := by
  have htxe := postedTxOf_eq book0 c e acc acc2 amt hacc hacc2 hamt
  obtain ⟨t0, ht0mem, ht0⟩ := hcov
  rw [htxe] at ht0
  injection ht0 with ht0e
  have hsome : (findTransByDesc bk acc e.memo).isSome = true := by
    rw [findTransByDesc, List.find?_isSome]
    refine ⟨t0, ht0mem, ?_⟩
    rw [← ht0e]
    simp [canonTx]
  obtain ⟨t1, ht1⟩ := Option.isSome_iff_exists.mp hsome
  have ht1mem : t1 ∈ bk.transactions := List.mem_of_find?_eq_some ht1
  have ht1pred := List.find?_some ht1
  simp only [Bool.and_eq_true, decide_eq_true_eq] at ht1pred
  obtain ⟨e2, he2L, he2⟩ := hcanon t1 ht1mem
  obtain ⟨a1, a2, am, ha1, ha2, ham, hteq⟩ := postedTxOf_shape book0 c e2 t1 he2
  have hdescr : e2.memo = e.memo := by
    rw [hteq] at ht1pred
    exact ht1pred.2
  have he2e : e2 = e := hMemo e2 he2L e heL hdescr
  subst he2e
  rw [htxe] at he2
  injection he2 with he2e2
  rw [ht1, he2e2]

theorem findTransByDesc_none_of_uncovered (book0 : Book) (c : Currency) (L : List Entry)
    (hMemo : ∀ e ∈ L, ∀ e2 ∈ L, e.memo = e2.memo → e = e2)
    (bk : Book) (e : Entry) (heL : e ∈ L)
    (hcanon : ∀ t ∈ bk.transactions, ∃ e2 ∈ L, postedTxOf book0 c e2 = some t)
    (acc : AccountPath)
    (hnocov : ¬∃ t ∈ bk.transactions, postedTxOf book0 c e = some t) :
    findTransByDesc bk acc e.memo = none := by
  rw [findTransByDesc, List.find?_eq_none]
  intro t htmem hpred
  simp only [Bool.and_eq_true, decide_eq_true_eq] at hpred
  obtain ⟨e2, he2L, he2⟩ := hcanon t htmem
  obtain ⟨a1, a2, am, ha1, ha2, ham, hteq⟩ := postedTxOf_shape book0 c e2 t he2
  have hdescr : e2.memo = e.memo := by
    rw [hteq] at hpred
    exact hpred.2
  have he2e : e2 = e := hMemo e2 he2L e heL hdescr
  subst he2e
  exact hnocov ⟨t, htmem, he2⟩

theorem item_true_of_covered (book0 : Book) (c : Currency) (L : List Entry)
    (hMemo : ∀ e ∈ L, ∀ e2 ∈ L, e.memo = e2.memo → e = e2)
    (bk : Book) (e : Entry) (heL : e ∈ L)
    (hbk : bk.accounts = book0.accounts)
    (hcanon : ∀ t ∈ bk.transactions, ∃ e2 ∈ L, postedTxOf book0 c e2 = some t)
    (acc acc2 : AccountPath) (amt : Int)
    (hacc : lookup_account book0 e.account = .ok acc)
    (hacc2 : lookup_account book0 e.split_category = .ok acc2)
    (hamt : to_gnc_numeric e c 1 = some amt)
    (hne : acc ≠ acc2)
    (hcov : ∃ t ∈ bk.transactions, postedTxOf book0 c e = some t) :
    item_already_in_book bk e c = .ok true := by
  have hla : lookup_account bk e.account = .ok acc := by
    rw [lookup_account_accounts bk book0 hbk]
    exact hacc
  have hfind := findTransByDesc_canonical book0 c L hMemo bk e heL hcanon
    acc acc2 amt hacc hacc2 hamt hcov
  have hamount := getAccountAmount_canon e acc acc2 amt hne
  simp only [item_already_in_book, hla, exceptBind_ok, hfind]
  have hdate : (canonTx e acc acc2 amt).date = e.date := rfl
  rw [if_pos hdate]
  have h3 : to_gnc_numericE e c 1 = .ok amt := by simp [to_gnc_numericE, hamt]
  rw [h3, exceptBind_ok, hamount]
  simp

theorem item_false_of_uncovered (book0 : Book) (c : Currency) (L : List Entry)
    (hMemo : ∀ e ∈ L, ∀ e2 ∈ L, e.memo = e2.memo → e = e2)
    (bk : Book) (e : Entry) (heL : e ∈ L)
    (hbk : bk.accounts = book0.accounts)
    (hcanon : ∀ t ∈ bk.transactions, ∃ e2 ∈ L, postedTxOf book0 c e2 = some t)
    (acc : AccountPath)
    (hacc : lookup_account book0 e.account = .ok acc)
    (hnocov : ¬∃ t ∈ bk.transactions, postedTxOf book0 c e = some t) :
    item_already_in_book bk e c = .ok false := by
  have hla : lookup_account bk e.account = .ok acc := by
    rw [lookup_account_accounts bk book0 hbk]
    exact hacc
  have hfind := findTransByDesc_none_of_uncovered book0 c L hMemo bk e heL hcanon acc hnocov
  simp [item_already_in_book, hla, exceptBind_ok, hfind]

theorem add_transaction_good (book0 bk : Book) (e : Entry) (c : Currency)
    (acc acc2 : AccountPath) (amt : Int)
    (hbk : bk.accounts = book0.accounts)
    (hacc : lookup_account book0 e.account = .ok acc)
    (hacc2 : lookup_account book0 e.split_category = .ok acc2)
    (hamt : to_gnc_numeric e c 1 = some amt) :
    add_transaction bk e c = .ok
      { accounts := bk.accounts,
        transactions := bk.transactions ++ [canonTx e acc acc2 amt] } := by
  have h1 : lookup_account bk e.account = .ok acc := by
    rw [lookup_account_accounts bk book0 hbk]
    exact hacc
  have h2 : lookup_account bk e.split_category = .ok acc2 := by
    rw [lookup_account_accounts bk book0 hbk]
    exact hacc2
  have h3 : to_gnc_numericE e c 1 = .ok amt := by simp [to_gnc_numericE, hamt]
  have h4 : to_gnc_numericE e c (-1) = .ok (-amt) := by
    simp [to_gnc_numericE, to_gnc_numeric_neg, hamt]
  simp [add_transaction, h1, h2, h3, h4, exceptBind_ok, canonTx]

theorem step_eval_dup (bk : Book) (seen : List EntryTuple) (e : Entry) (c : Currency)
    (hitem : item_already_in_book bk e c = .ok true) :
    step c none bk seen e =
      .ok ((bk, seen), .duplicate true (decide (e.as_tuple ∈ seen))) := by
  simp [step, belowDateFrom, hitem, exceptBind_ok]

theorem step_eval_post (bk bk2 : Book) (seen : List EntryTuple) (e : Entry) (c : Currency)
    (hitem : item_already_in_book bk e c = .ok false)
    (hmem : e.as_tuple ∉ seen)
    (hadd : add_transaction bk e c = .ok bk2) :
    step c none bk seen e = .ok ((bk2, seen ++ [e.as_tuple]), .posted) := by
  simp [step, belowDateFrom, hitem, hadd, hmem, exceptBind_ok]

theorem run1_aux (book0 : Book) (c : Currency) (L : List Entry)
    (hOk : ∀ e ∈ L, entryOkB book0 c e = true)
    (hMemo : ∀ e ∈ L, ∀ e2 ∈ L, e.memo = e2.memo → e = e2)
    (hLegs : ∀ e ∈ L,
      lookup_account book0 e.account ≠ lookup_account book0 e.split_category) :
    ∀ (l : List Entry), (∀ e ∈ l, e ∈ L) →
      ∀ (bk : Book) (seen : List EntryTuple),
        bk.accounts = book0.accounts →
        (∀ t ∈ bk.transactions, ∃ e2 ∈ L, postedTxOf book0 c e2 = some t) →
        (∀ e2 : Entry, e2 ∈ L → e2.as_tuple ∈ seen →
          ∃ t ∈ bk.transactions, postedTxOf book0 c e2 = some t) →
        ∃ b2 s2 rs, runEntries c none bk seen l = .ok (b2, s2, rs) ∧
          b2.accounts = book0.accounts ∧
          (∃ ext, b2.transactions = bk.transactions ++ ext) ∧
          (∀ t ∈ b2.transactions, ∃ e2 ∈ L, postedTxOf book0 c e2 = some t) ∧
          (∀ e ∈ l, ∃ t ∈ b2.transactions, postedTxOf book0 c e = some t) ∧
          (∀ e2 : Entry, e2 ∈ L → e2.as_tuple ∈ s2 →
            ∃ t ∈ b2.transactions, postedTxOf book0 c e2 = some t) := by
  intro l
  induction l with
  | nil =>
    intro hsub bk seen hbk hcanon hseen
    exact ⟨bk, seen, [], rfl, hbk, ⟨[], (List.append_nil _).symm⟩, hcanon, by simp, hseen⟩
  | cons e l ih =>
    intro hsub bk seen hbk hcanon hseen
    have heL : e ∈ L := hsub e (List.mem_cons_self e l)
    obtain ⟨⟨acc, hacc⟩, ⟨acc2, hacc2⟩, ⟨amt, hamt⟩⟩ :=
      (entryOkB_iff book0 c e).mp (hOk e heL)
    have hne : acc ≠ acc2 := fun he => hLegs e heL (by rw [hacc, hacc2, he])
    by_cases hcov : ∃ t ∈ bk.transactions, postedTxOf book0 c e = some t
    · have hitem := item_true_of_covered book0 c L hMemo bk e heL hbk hcanon
        acc acc2 amt hacc hacc2 hamt hne hcov
      have hstep := step_eval_dup bk seen e c hitem
      obtain ⟨b2, s2, rs, hrun, hb2acc, hext, hcanon2, hcovl, hseen2⟩ :=
        ih (fun x hx => hsub x (List.mem_cons_of_mem e hx)) bk seen hbk hcanon hseen
      refine ⟨b2, s2, .duplicate true (decide (e.as_tuple ∈ seen)) :: rs, ?_, hb2acc,
        hext, hcanon2, ?_, hseen2⟩
      · simp only [runEntries, hstep, exceptBind_ok, hrun]
      · intro x hx
        rcases List.mem_cons.mp hx with rfl | hxl
        · obtain ⟨t, htmem, ht⟩ := hcov
          obtain ⟨ext, hexte⟩ := hext
          exact ⟨t, by rw [hexte]; exact List.mem_append_left _ htmem, ht⟩
        · exact hcovl x hxl
    · have hnseen : e.as_tuple ∉ seen := fun hmem => hcov (hseen e heL hmem)
      have hitem := item_false_of_uncovered book0 c L hMemo bk e heL hbk hcanon
        acc hacc hcov
      have hadd := add_transaction_good book0 bk e c acc acc2 amt hbk hacc hacc2 hamt
      have hstep := step_eval_post bk _ seen e c hitem hnseen hadd
      have htxe := postedTxOf_eq book0 c e acc acc2 amt hacc hacc2 hamt
      have hbk1 : (Book.mk bk.accounts
          (bk.transactions ++ [canonTx e acc acc2 amt])).accounts = book0.accounts := hbk
      have hcanon1 : ∀ t ∈ bk.transactions ++ [canonTx e acc acc2 amt],
          ∃ e2 ∈ L, postedTxOf book0 c e2 = some t := by
        intro t ht
        rcases List.mem_append.mp ht with h1 | h1
        · exact hcanon t h1
        · have hte : t = canonTx e acc acc2 amt := List.mem_singleton.mp h1
          subst hte
          exact ⟨e, heL, htxe⟩
      have hseen1 : ∀ e2 : Entry, e2 ∈ L → e2.as_tuple ∈ seen ++ [e.as_tuple] →
          ∃ t ∈ bk.transactions ++ [canonTx e acc acc2 amt],
            postedTxOf book0 c e2 = some t := by
        intro e2 he2L he2mem
        rcases List.mem_append.mp he2mem with h1 | h1
        · obtain ⟨t, htmem, ht⟩ := hseen e2 he2L h1
          exact ⟨t, List.mem_append_left _ htmem, ht⟩
        · have he2e : e2 = e := as_tuple_inj e2 e (List.mem_singleton.mp h1)
          subst he2e
          exact ⟨canonTx e2 acc acc2 amt,
            List.mem_append_right _ (List.mem_singleton.mpr rfl), htxe⟩
      obtain ⟨b2, s2, rs, hrun, hb2acc, hext, hcanon2, hcovl, hseen2⟩ :=
        ih (fun x hx => hsub x (List.mem_cons_of_mem e hx))
          (Book.mk bk.accounts (bk.transactions ++ [canonTx e acc acc2 amt]))
          (seen ++ [e.as_tuple]) hbk1 hcanon1 hseen1
      obtain ⟨ext, hexte⟩ := hext
      refine ⟨b2, s2, .posted :: rs, ?_, hb2acc, ⟨canonTx e acc acc2 amt :: ext, ?_⟩,
        hcanon2, ?_, hseen2⟩
      · simp only [runEntries, hstep, exceptBind_ok, hrun]
      · rw [hexte]
        simp
      · intro x hx
        rcases List.mem_cons.mp hx with rfl | hxl
        · refine ⟨canonTx x acc acc2 amt, ?_, htxe⟩
          rw [hexte]
          exact List.mem_append_left _
            (List.mem_append_right _ (List.mem_singleton.mpr rfl))
        · exact hcovl x hxl

theorem run2_aux (book0 : Book) (c : Currency) (L : List Entry)
    (hOk : ∀ e ∈ L, entryOkB book0 c e = true)
    (hMemo : ∀ e ∈ L, ∀ e2 ∈ L, e.memo = e2.memo → e = e2)
    (hLegs : ∀ e ∈ L,
      lookup_account book0 e.account ≠ lookup_account book0 e.split_category) :
    ∀ (l : List Entry), (∀ e ∈ l, e ∈ L) →
      ∀ (b1 : Book) (seen : List EntryTuple),
        b1.accounts = book0.accounts →
        (∀ t ∈ b1.transactions, ∃ e2 ∈ L, postedTxOf book0 c e2 = some t) →
        (∀ e ∈ l, ∃ t ∈ b1.transactions, postedTxOf book0 c e = some t) →
        ∃ rs, runEntries c none b1 seen l = .ok (b1, seen, rs) ∧
          ∀ r ∈ rs, ∃ y, r = .duplicate true y := by
  intro l
  induction l with
  | nil =>
    intro hsub b1 seen hbk hcanon hcov
    exact ⟨[], rfl, by simp⟩
  | cons e l ih =>
    intro hsub b1 seen hbk hcanon hcov
    have heL : e ∈ L := hsub e (List.mem_cons_self e l)
    obtain ⟨⟨acc, hacc⟩, ⟨acc2, hacc2⟩, ⟨amt, hamt⟩⟩ :=
      (entryOkB_iff book0 c e).mp (hOk e heL)
    have hne : acc ≠ acc2 := fun he => hLegs e heL (by rw [hacc, hacc2, he])
    have hitem := item_true_of_covered book0 c L hMemo b1 e heL hbk hcanon
      acc acc2 amt hacc hacc2 hamt hne (hcov e (List.mem_cons_self e l))
    have hstep := step_eval_dup b1 seen e c hitem
    obtain ⟨rs, hrun, hdup⟩ := ih (fun x hx => hsub x (List.mem_cons_of_mem e hx))
      b1 seen hbk hcanon (fun x hx => hcov x (List.mem_cons_of_mem e hx))
    refine ⟨.duplicate true (decide (e.as_tuple ∈ seen)) :: rs, ?_, ?_⟩
    · simp only [runEntries, hstep, exceptBind_ok, hrun]
    · intro r hr
      rcases List.mem_cons.mp hr with rfl | hrl
      · exact ⟨_, rfl⟩
      · exact hdup r hrl

/-- C1 amended: starting from a ledger with no prior transactions and no date
filter, for a source set whose entries all resolve and parse, whose memos
determine the entry (two entries sharing a memo are field-identical), and
whose two legs resolve to different accounts, a second identical run posts
zero new ledger transactions — the book is returned unchanged — and every
entry is skipped as a ledger-level duplicate (the in-run set observation is
also recorded).  The unamended claim fails when two distinct entries share a
memo: `import_idempotent_counterexample`. -/
theorem import_idempotent (book0 : Book) (c : Currency) (l : List Entry)
    (h0 : book0.transactions = [])
    (hOk : ∀ e ∈ l, entryOkB book0 c e = true)
    (hMemo : ∀ e ∈ l, ∀ e2 ∈ l, e.memo = e2.memo → e = e2)
    (hLegs : ∀ e ∈ l,
      lookup_account book0 e.account ≠ lookup_account book0 e.split_category)
    (b1 : Book) (s1 : List EntryTuple) (rs1 : List EntryResult)
    (hrun1 : write_transactions_to_gnucash book0 c l none = .ok (b1, s1, rs1)) :
    ∃ rs2, write_transactions_to_gnucash b1 c l none = .ok (b1, [], rs2) ∧
      ∀ r ∈ rs2, ∃ y, r = .duplicate true y := by
  obtain ⟨b2, s2, rs, hrun, hb2acc, hext, hcanon2, hcovl, hseen2⟩ :=
    run1_aux book0 c l hOk hMemo hLegs l (fun e he => he) book0 [] rfl
      (by rw [h0]; intro t ht; cases ht)
      (fun e2 _ h => absurd h (List.not_mem_nil _))
  rw [write_transactions_to_gnucash] at hrun1
  rw [hrun1] at hrun
  simp only [Except.ok.injEq, Prod.mk.injEq] at hrun
  obtain ⟨hb, hs, hrs⟩ := hrun
  subst hb
  exact run2_aux book0 c l hOk hMemo hLegs l (fun e he => he) b1 [] hb2acc hcanon2 hcovl

/-- Counterexample to C1 as stated: two entries that share the memo "M" but
differ in date (and category and amount) are both posted by the first run;
on the second run, rerun on the resulting ledger state with a fresh in-run
set, the description-first lookup returns the first "M" transaction for the
second entry, the dates differ, the in-run set does not contain it either,
and the entry is POSTED AGAIN — the second run adds a third transaction
instead of skipping everything. -/
theorem import_idempotent_counterexample :
    write_transactions_to_gnucash xBook cCur [xE1, xE2] none =
      .ok (xBook1, [xE1.as_tuple, xE2.as_tuple], [.posted, .posted]) ∧
    write_transactions_to_gnucash xBook1 cCur [xE1, xE2] none =
      .ok (xBook2, [xE2.as_tuple], [.duplicate true false, .posted]) ∧
    xBook2.transactions.length = xBook1.transactions.length + 1 :=
  ⟨rfl, rfl, rfl⟩

/-- Witness for the amended C1: one well-formed entry imported twice — the
second run returns the book unchanged with a ledger-level duplicate skip. -/
theorem import_idempotent_witness :
    ∃ rs2, write_transactions_to_gnucash wBook1 cCur [wE] none = .ok (wBook1, [], rs2) ∧
      ∀ r ∈ rs2, ∃ y, r = .duplicate true y :=
  import_idempotent wBook cCur [wE] rfl (by decide) (by decide) (by decide)
    wBook1 [wE.as_tuple] [.posted] rfl
